import Mathlib

/-!
Shallow embedding of the homomorphic Eigenfaces engine
(`homomorphic_eigenfaces_module.py`) over exact rationals.

Modelling conventions:
* Numeric values are `ℚ` (the plaintext instantiation; float rounding is
  ignored, arithmetic is exact).
* Python exceptions (ZeroDivisionError from `1 / 0` in the reciprocal
  oracle, IndexError from out-of-range list indexing, ValueError from
  `np.argmin` on an empty list) are modelled by `Option`: `none` means the
  call raised instead of returning.
* The Key Holder's reencryption oracle is semantically the identity
  (decrypt then re-encrypt); where a claim is about how often the oracle
  is invoked, an instrumented variant threading an invocation counter is
  provided alongside.
* Python `for` loops that may raise are `omap` (monadic map over `Option`)
  over the iterated list, matching statement order of the source.
-/

/-- Monadic map over `Option`, the shape of a Python `for` loop whose body
may raise: stops at the first failure, otherwise collects results. -/
def omap (f : α → Option β) : List α → Option (List β)
  | [] => some []
  | a :: t => do
    let b ← f a
    let r ← omap f t
    pure (b :: r)

/-- Embeds `EigenfacesClient._goldschmidt_initializer` (plaintext branch):
returns `1 / x`; `x = 0` raises `ZeroDivisionError`, modelled as `none`. -/
def goldschmidtSeed (b : ℚ) : Option ℚ :=
  if b = 0 then none else some (1 / b)

/-- Embeds `EigenfacesServer._goldschmidt_division`: obtains the reciprocal
seed `r` from the oracle, then performs the single refinement pass
(`no_iterations = 1`, the loop body is `a = r * a`) and returns the result.
The plaintext reencryption at the end is the identity. -/
def goldschmidt_division (a b : ℚ) : Option ℚ :=
  (goldschmidtSeed b).map (fun r => (List.range 1).foldl (fun acc _ => r * acc) a)

/-- One Newton-Raphson iteration of `_newton_sqrt`:
`x0 = 0.5 * (x0 + goldschmidt_division(a, x0))`. -/
def newtonStep (a x : ℚ) : Option ℚ :=
  (goldschmidt_division a x).map (fun q => 1/2 * (x + q))

/-- The fixed-count iteration loop of `_newton_sqrt`. -/
def newtonAux (a : ℚ) : ℕ → ℚ → Option ℚ
  | 0, x => some x
  | n + 1, x => (newtonStep a x).bind (newtonAux a n)

/-- Embeds `EigenfacesServer._newton_sqrt`: 30 fixed Newton-Raphson
iterations starting from `x0 = x`. -/
def newton_sqrt (x : ℚ) : Option ℚ :=
  newtonAux x 30 x

/-- Elementwise vector addition (numpy `+` on equal-length vectors). -/
def vecAdd (u v : List ℚ) : List ℚ :=
  List.zipWith (fun a b => a + b) u v

/-- Embeds `np.sum(X, axis = 0)`: elementwise sum of the rows; numpy
rejects a ragged row list, modelled as `none`. -/
def sumAxis0 (X : List (List ℚ)) : Option (List ℚ) :=
  match X with
  | [] => some []
  | h :: t => if t.all (fun r => r.length = h.length) then some (t.foldl vecAdd h) else none

/-- Embeds `EigenfacesServer._vector_mean`: column sums, then each entry
multiplied by `goldschmidt_division(1, len(X))`; the final loop runs over
`range(len(X[0]))` indexing into the sum vector. -/
def vector_mean (X : List (List ℚ)) : Option (List ℚ) := do
  let s ← sumAxis0 X
  let n := X.length
  let d ← goldschmidt_division 1 (n : ℚ)
  let m := (X.headD []).length
  omap (fun i => (s.get? i).map (fun v => v * d)) (List.range m)

/-- Embeds `EigenfacesServer._goldschmidt_vector_division`. -/
def goldschmidt_vector_division (A : List ℚ) (b : ℚ) : Option (List ℚ) :=
  omap (fun a => goldschmidt_division a b) A

/-- Embeds `EigenfacesServer._norm`: sum of squares accumulated by a loop,
then `_newton_sqrt` of the sum. -/
def vecNorm (X : List ℚ) : Option ℚ :=
  newton_sqrt (X.foldl (fun acc v => acc + v * v) 0)

/-- Embeds `EigenfacesClient._n_components_comparison`: iterates over
`np.cumsum(L) / np.sum(L)` and returns the first index `i` whose
cumulative ratio exceeds the variance threshold `0.99`; a zero total sum
(numpy division blow-up) and a never-exceeded threshold give no result. -/
def n_components_comparison (L : List ℚ) : Option ℕ :=
  if L.sum = 0 then none
  else (List.range L.length).find? (fun i => decide (99/100 < (L.take (i + 1)).sum / L.sum))

/-- First-minimum scan of `np.argmin`: index of the first least element. -/
def argminAux : List ℚ → ℚ → ℕ → ℕ → ℕ
  | [], _, curidx, _ => curidx
  | d :: t, cur, curidx, pos => if d < cur then argminAux t d pos (pos + 1) else argminAux t cur curidx (pos + 1)

/-- Embeds `EigenfacesClient._distance_comparison`: `np.argmin` over the
decrypted distances; an empty list raises `ValueError`, modelled `none`. -/
def distance_comparison (D : List ℚ) : Option ℕ :=
  match D with
  | [] => none
  | d :: t => some (argminAux t d 0 1)

/-- Fallible two-level list indexing, `M[i][j]` in Python. -/
def idx2 (M : List (List ℚ)) (i j : ℕ) : Option ℚ :=
  (M.get? i).bind (fun r => r.get? j)

/-- Embeds the pure triple loop of `EigenfacesServer._matrix_mult` (the
part before the single `self.reencrypt` call): reads `len(B[0])` up
front (IndexError on empty `B`), then for `i < len(A)`, `j < len(B[0])`,
sums `A[i][k] * B[k][j]` over `k < len(B)`. No shape validation. -/
def matMultCore (A B : List (List ℚ)) : Option (List (List ℚ)) := do
  let b0 ← B.get? 0
  omap (fun i =>
      (omap (fun j =>
          (omap (fun k => do
              let x ← idx2 A i k
              let y ← idx2 B k j
              pure (x * y)) (List.range B.length)).map List.sum)
        (List.range b0.length)))
    (List.range A.length)

/-- `_matrix_mult` in plaintext mode: the core followed by the identity
reencryption. -/
def matrix_mult (A B : List (List ℚ)) : Option (List (List ℚ)) :=
  matMultCore A B

/-- Embeds the pure loop of `EigenfacesServer._mat_vec_mult` (before the
single `self.reencrypt_vec` call): reads `len(M[0])` up front, then for
`i < len(M)` sums `M[i][j] * V[j]` over `j < len(M[0])`. -/
def matVecMultCore (M : List (List ℚ)) (V : List ℚ) : Option (List ℚ) := do
  let m0 ← M.get? 0
  omap (fun i =>
      (omap (fun j => do
          let a ← idx2 M i j
          let b ← V.get? j
          pure (a * b)) (List.range m0.length)).map List.sum)
    (List.range M.length)

/-- `_mat_vec_mult` in plaintext mode. -/
def mat_vec_mult (M : List (List ℚ)) (V : List ℚ) : Option (List ℚ) :=
  matVecMultCore M V

/-- Embeds the pure loop of `EigenfacesServer._vec_mult` (before the
single `self.reencrypt_vec` call): every entry times the scalar. -/
def vecMultCore (V : List ℚ) (x : ℚ) : List ℚ :=
  V.map (fun v => v * x)

/-- Embeds the pure loop of `EigenfacesServer._vec_cross` (before the
single `self.reencrypt` call): `n = len(V1)` and entry `(i, j)` is
`V1[i] * V2[j]` for `i, j < n`, indexing `V2` fallibly. -/
def vecCrossCore (V1 V2 : List ℚ) : Option (List (List ℚ)) :=
  omap (fun i =>
      (V1.get? i).bind (fun a =>
        omap (fun j => (V2.get? j).map (fun b => a * b)) (List.range V1.length)))
    (List.range V1.length)

/-- Instrumented `_matrix_mult`: value plus reencryption-oracle call
count.  The source applies `self.reencrypt` exactly once, to the fully
assembled product, just before returning; if the loops raise first the
oracle is never reached. -/
def matrix_mult_cnt (A B : List (List ℚ)) (n : ℕ) : Option (List (List ℚ)) × ℕ :=
  match matMultCore A B with
  | none => (none, n)
  | some r => (some r, n + 1)

/-- Instrumented `_mat_vec_mult`: one `self.reencrypt_vec` call on the
assembled product. -/
def mat_vec_mult_cnt (M : List (List ℚ)) (V : List ℚ) (n : ℕ) : Option (List ℚ) × ℕ :=
  match matVecMultCore M V with
  | none => (none, n)
  | some r => (some r, n + 1)

/-- Instrumented `_vec_mult`: the loop cannot raise, and one
`self.reencrypt_vec` call is made on the product. -/
def vec_mult_cnt (V : List ℚ) (x : ℚ) (n : ℕ) : Option (List ℚ) × ℕ :=
  (some (vecMultCore V x), n + 1)

/-- Instrumented `_vec_cross`: one `self.reencrypt` call on the assembled
product. -/
def vec_cross_cnt (V1 V2 : List ℚ) (n : ℕ) : Option (List (List ℚ)) × ℕ :=
  match vecCrossCore V1 V2 with
  | none => (none, n)
  | some r => (some r, n + 1)

/-- The fixed iteration count of `_pow_eig_comb` (`no_iterations = 2`). -/
def powIterCount : ℕ := 2

/-- One pass of the inner `for j in range(no_iterations)` loop of
`_pow_eig_comb`, acting on the state `(w, lambda, w_old)`:
`x = _mat_vec_mult(C, w)`, `lambda = _norm(x)`,
`w = _goldschmidt_vector_division(x, lambda)`, and when
`j + 2 == no_iterations` the snapshot `w_old = w[0]` is taken. -/
def powLoopStep (C : List (List ℚ)) (j : ℕ) (st : List ℚ × ℚ × ℚ) :
    Option (List ℚ × ℚ × ℚ) := do
  let x ← mat_vec_mult C st.1
  let lam ← vecNorm x
  let w ← goldschmidt_vector_division x lam
  let wold ← if j + 2 = powIterCount then w.get? 0 else pure st.2.2
  pure (w, lam, wold)

/-- The inner loop of `_pow_eig_comb` over the list of iteration indices. -/
def powLoop (C : List (List ℚ)) : List ℕ → (List ℚ × ℚ × ℚ) → Option (List ℚ × ℚ × ℚ)
  | [], st => some st
  | j :: js, st => (powLoopStep C j st).bind (powLoop C js)

/-- One eigenpair extraction of `_pow_eig_comb` (the body of the outer
loop, before deflation): all-ones start `np.ones(n)`, normalisation by
`_norm` and `_goldschmidt_vector_division`, the two inner iterations with
initial `w_old = 1`, then the sign/scale correction
`dividend = _goldschmidt_division(w[0], w_old)` applied to both the
eigenvalue and (via `_vec_mult` plus identity reencryption) the vector. -/
def extractPair (n : ℕ) (C : List (List ℚ)) : Option (ℚ × List ℚ) := do
  let x := List.replicate n (1 : ℚ)
  let nx ← vecNorm x
  let w0 ← goldschmidt_vector_division x nx
  let st ← powLoop C (List.range powIterCount) (w0, 0, 1)
  let wf ← st.1.get? 0
  let dividend ← goldschmidt_division wf st.2.2
  pure (dividend * st.2.1, vecMultCore st.1 dividend)

/-- Elementwise matrix addition (numpy `C += temp`). -/
def matAdd (A B : List (List ℚ)) : List (List ℚ) :=
  List.zipWith vecAdd A B

/-- One outer-loop pass of `_pow_eig_comb` on the accumulator
`(C, lambdas, W)`: extract a pair, append it, and deflate `C` by adding
`_vec_cross(_vec_mult(w, -1 * lambda), w)`. -/
def powEigStep (n : ℕ) (acc : List (List ℚ) × List ℚ × List (List ℚ)) :
    Option (List (List ℚ) × List ℚ × List (List ℚ)) := do
  let p ← extractPair n acc.1
  let temp := vecMultCore p.2 ((-1) * p.1)
  let t2 ← vecCrossCore temp p.2
  pure (matAdd acc.1 t2, acc.2.1 ++ [p.1], acc.2.2 ++ [p.2])

/-- The outer loop of `_pow_eig_comb`, run `len(C)` times. -/
def powEigRun (n : ℕ) : ℕ → (List (List ℚ) × List ℚ × List (List ℚ)) →
    Option (List (List ℚ) × List ℚ × List (List ℚ))
  | 0, acc => some acc
  | k + 1, acc => (powEigStep n acc).bind (powEigRun n k)

/-- Embeds `EigenfacesServer._pow_eig_comb`: returns the eigenvalue list
and the eigenvector rows in extraction order. -/
def pow_eig_comb (C : List (List ℚ)) : Option (List ℚ × List (List ℚ)) :=
  (powEigRun C.length C.length (C, [], [])).map (fun r => (r.2.1, r.2.2))

/-- Subtraction of the mean face from every row: numpy's in-place
`X += -1 * self.mean_face` broadcast over the rows. -/
def subMeanRows (X : List (List ℚ)) (mu : List ℚ) : List (List ℚ) :=
  X.map (fun r => List.zipWith (fun a b => a + (-1) * b) r mu)

/-- Length-checked vector addition: numpy raises on a broadcast shape
mismatch between two 1-D operands. -/
def vecAddOpt (u v : List ℚ) : Option (List ℚ) :=
  if u.length = v.length then some (List.zipWith (fun a b => a + b) u v) else none

/-- Column normalisation loop of the wide branch of `_pca`:
`W[:, i] = _goldschmidt_vector_division(W[:, i], _norm(W[:, i]))` for
`i in range(n)`; in the source `n` always equals the number of columns of
`W` at this point, so every column is normalised. -/
def normalizeCols (W : List (List ℚ)) : Option (List (List ℚ)) := do
  let cols ← omap (fun c => do
      let nc ← vecNorm c
      goldschmidt_vector_division c nc) W.transpose
  pure cols.transpose

/-- Embeds `EigenfacesServer._pca` (given the already stored mean face):
destructures `np.shape(X)`, performs the in-place mean subtraction, builds
the covariance on the tall (`n > d`) or wide branch, decomposes it with
`_pow_eig_comb`, asks the component-count oracle for `k`, and returns the
first `k` rows of `W` (fallible indexing `W[i]`). -/
def pca (X : List (List ℚ)) (mu : List ℚ) : Option (List (List ℚ)) := do
  let r0 ← X.get? 0
  let n := X.length
  let d := r0.length
  let Xc := subMeanRows X mu
  let lw ← if d < n then do
      let C ← matrix_mult Xc.transpose Xc
      pow_eig_comb C
    else do
      let C ← matrix_mult Xc Xc.transpose
      let lw0 ← pow_eig_comb C
      let W1 ← matrix_mult Xc.transpose lw0.2
      let W2 ← normalizeCols W1
      pure (lw0.1, W2)
  let k ← n_components_comparison lw.1
  omap (fun i => lw.2.get? i) (List.range k)

/-- Embeds `EigenfacesServer._project`: negates the mean, flattens each
image matrix, adds the negated mean (numpy broadcast, shape-checked) and
multiplies by the basis `W`. -/
def project (X : List (List (List ℚ))) (W : List (List ℚ)) (mu : List ℚ) :
    Option (List (List ℚ)) :=
  let nmu := mu.map (fun z => (-1) * z)
  omap (fun mat => do
      let tv ← vecAddOpt mat.flatten nmu
      mat_vec_mult W tv) X

/-- Embeds `EigenfacesServer._euclidean_distance`: elementwise difference
and square (numpy, shape-checked), summed, then `_newton_sqrt`. -/
def euclidean_distance (p q : List ℚ) : Option ℚ := do
  let sub ← vecAddOpt p (q.map (fun z => (-1) * z))
  newton_sqrt ((sub.map (fun v => v * v)).sum)

/-- The mutable attributes of `EigenfacesServer`: `is_trained` plus the
three model attributes, `none` while the attribute has not been assigned
(accessing it then raises `AttributeError`). -/
structure ServerState where
  is_trained : Bool
  eigenfaces : Option (List (List ℚ))
  mean_face : Option (List ℚ)
  projected_training_images : Option (List (List ℚ))
deriving DecidableEq

/-- The state `EigenfacesServer.__init__` leaves behind: `is_trained`
false and no model attributes assigned. -/
def initialServer : ServerState :=
  ⟨false, none, none, none⟩

/-- Embeds `EigenfacesServer.Train`: stores the mean face, runs `_pca`,
projects the training images and flips `is_trained`. Any exception along
the way (modelled `none`) leaves no trained state. -/
def Train (normalized : List (List (List ℚ))) (X : List (List ℚ)) :
    Option ServerState := do
  let mu ← vector_mean X
  let W ← pca X mu
  let P ← project normalized W mu
  pure ⟨true, some W, some mu, some P⟩

/-- Final contents of the caller's `vectorized_training_images` argument
after `Train`: the single write to it in the source is `_pca`'s in-place
`X += -1 * self.mean_face`, executed as soon as the mean-face computation
has succeeded (no later statement writes to `X`); if `_vector_mean`
raises first, the array is untouched. -/
def trainFinalX (X : List (List ℚ)) : List (List ℚ) :=
  match vector_mean X with
  | none => X
  | some mu => subMeanRows X mu

/-- Embeds `EigenfacesServer.Classify`: projects the query images with the
stored model attributes (raising if `Train` never assigned them), computes
the Euclidean distances to every stored projection, asks the argmin oracle
and returns the labels at the resulting indices. -/
def Classify (st : ServerState) (tests : List (List (List ℚ))) (labels : List ℕ) :
    Option (List ℕ) := do
  let W ← st.eigenfaces
  let mu ← st.mean_face
  let q ← project tests W mu
  let P ← st.projected_training_images
  omap (fun qi => do
      let ds ← omap (fun pj => euclidean_distance pj qi) P
      let idx ← distance_comparison ds
      labels.get? idx) q

/-- Spec-side column sum: the element-wise sum of column `i` of the
matrix (missing entries read as 0; under the rectangularity hypotheses of
the theorems every entry exists). -/
def colSum (X : List (List ℚ)) (i : ℕ) : ℚ :=
  (X.map (fun r => r.getD i 0)).sum

/-- Spec-side outer product `outer_product(u, v)`. -/
def outerProduct (u v : List ℚ) : List (List ℚ) :=
  u.map (fun a => v.map (fun b => a * b))

/-- Spec-side scalar-matrix multiplication. -/
def matScale (c : ℚ) (M : List (List ℚ)) : List (List ℚ) :=
  M.map (fun r => r.map (fun v => c * v))

/-- Spec-side elementwise matrix subtraction. -/
def matSub (A B : List (List ℚ)) : List (List ℚ) :=
  List.zipWith (fun r s => List.zipWith (fun a b => a - b) r s) A B

/-- Modelled from the spec: one power-iteration pass — multiply by `C`,
take the norm of the product as the eigenvalue estimate, normalise by
dividing by that norm. -/
def powerIterationStep (C : List (List ℚ)) (w : List ℚ) : Option (ℚ × List ℚ) := do
  let x ← mat_vec_mult C w
  let lam ← vecNorm x
  let wn ← goldschmidt_vector_division x lam
  pure (lam, wn)

/-- Modelled from the spec: one eigenpair extraction — all-ones candidate,
normalised via norm and divide, two power-iteration passes with the
snapshot of the first entry taken at iteration N-2 (the first of the two),
and the sign/scale correction ratio (final iterate's first entry over the
snapshot) applied to both the eigenvalue and the eigenvector. -/
def extractPairSpec (n : ℕ) (C : List (List ℚ)) : Option (ℚ × List ℚ) := do
  let ones := List.replicate n (1 : ℚ)
  let nrm ← vecNorm ones
  let w0 ← goldschmidt_vector_division ones nrm
  let p1 ← powerIterationStep C w0
  let snapshot ← p1.2.get? 0
  let p2 ← powerIterationStep C p1.2
  let final ← p2.2.get? 0
  let corr ← goldschmidt_division final snapshot
  pure (corr * p2.1, vecMultCore p2.2 corr)

/-- Modelled from the spec: extract an eigenpair, record it, and deflate
`C` by subtracting `eigenvalue * outer_product(eigenvector, eigenvector)`. -/
def powEigStepSpec (n : ℕ) (acc : List (List ℚ) × List ℚ × List (List ℚ)) :
    Option (List (List ℚ) × List ℚ × List (List ℚ)) := do
  let p ← extractPairSpec n acc.1
  pure (matSub acc.1 (matScale p.1 (outerProduct p.2 p.2)),
    acc.2.1 ++ [p.1], acc.2.2 ++ [p.2])

/-- Modelled from the spec: the deflation loop, one pass per eigenpair. -/
def powEigRunSpec (n : ℕ) : ℕ → (List (List ℚ) × List ℚ × List (List ℚ)) →
    Option (List (List ℚ) × List ℚ × List (List ℚ))
  | 0, acc => some acc
  | k + 1, acc => (powEigStepSpec n acc).bind (powEigRunSpec n k)

/-- Modelled from the spec: the eigen-decomposition as the claim describes
it — `n` eigenpairs extracted by deflation from the `n × n` matrix. -/
def pow_eig_comb_spec (C : List (List ℚ)) : Option (List ℚ × List (List ℚ)) :=
  (powEigRunSpec C.length C.length (C, [], [])).map (fun r => (r.2.1, r.2.2))

lemma goldschmidt_division_eq (a b : ℚ) (hb : b ≠ 0) :
    goldschmidt_division a b = some (1 / b * a) := by
  simp [goldschmidt_division, goldschmidtSeed, hb, List.range_succ]

lemma omap_congr {f g : α → Option β} : ∀ {l : List α},
    (∀ a ∈ l, f a = g a) → omap f l = omap g l
  | [], _ => rfl
  | a :: t, h => by
    simp only [omap, h a (by simp)]
    rw [omap_congr (fun b hb => h b (by simp [hb]))]

lemma omap_map (g : β → Option γ) (h : α → β) :
    ∀ l : List α, omap g (l.map h) = omap (fun a => g (h a)) l
  | [] => rfl
  | a :: t => by simp only [List.map_cons, omap, omap_map g h t]

lemma omap_some (g : α → β) : ∀ l : List α, omap (fun a => some (g a)) l = some (l.map g)
  | [] => rfl
  | a :: t => by simp only [omap, omap_some g t, Option.bind_some, List.map_cons]; rfl

lemma omap_range_get_bind (f : α → Option β) :
    ∀ l : List α, omap (fun j => (l.get? j).bind f) (List.range l.length) = omap f l
  | [] => rfl
  | a :: t => by
    rw [List.length_cons, List.range_succ_eq_map, omap]
    simp only [List.get?_cons_zero, Option.some_bind, omap_map, List.get?_cons_succ]
    rw [omap_range_get_bind f t]
    rfl

lemma omap_range_get_map (l : List α) (f : α → β) :
    omap (fun j => (l.get? j).map f) (List.range l.length) = some (l.map f) := by
  have h1 : omap (fun j => (l.get? j).map f) (List.range l.length)
      = omap (fun j => (l.get? j).bind (fun a => some (f a))) (List.range l.length) :=
    omap_congr (fun j _ => by cases l.get? j <;> rfl)
  rw [h1, omap_range_get_bind, omap_some]

lemma vecAdd_get? : ∀ (u v : List ℚ) (i : ℕ), i < u.length → i < v.length →
    (vecAdd u v).get? i = some (u.getD i 0 + v.getD i 0)
  | [], _, i, hu, _ => by simp at hu
  | _ :: _, [], i, _, hv => by simp at hv
  | a :: tu, b :: tv, 0, _, _ => by simp [vecAdd]
  | a :: tu, b :: tv, i + 1, hu, hv => by
    simp only [vecAdd, List.zipWith_cons_cons, List.get?_cons_succ, List.getD_cons_succ]
    exact vecAdd_get? tu tv i (by simpa using hu) (by simpa using hv)

lemma foldl_vecAdd_char : ∀ (t : List (List ℚ)) (h : List ℚ),
    (∀ r ∈ t, r.length = h.length) →
    (t.foldl vecAdd h).length = h.length ∧
      ∀ i, i < h.length → (t.foldl vecAdd h).get? i = some (h.getD i 0 + colSum t i)
  | [], h, _ => by
    refine ⟨rfl, fun i hi => ?_⟩
    cases heq : h.get? i with
    | none => exact absurd (List.get?_eq_none.mp heq) (by omega)
    | some v =>
      have : h.getD i 0 = v := by rw [List.getD_eq_getD_get?, heq]; rfl
      rw [List.foldl_nil, heq, this]
      simp [colSum]
  | r :: t, h, hyp => by
    have hr : r.length = h.length := hyp r (by simp)
    have hlen : (vecAdd h r).length = h.length := by
      simp [vecAdd, List.length_zipWith, hr]
    have hyp2 : ∀ rr ∈ t, rr.length = (vecAdd h r).length := by
      intro rr hrr; rw [hlen]; exact hyp rr (by simp [hrr])
    obtain ⟨ihlen, ihget⟩ := foldl_vecAdd_char t (vecAdd h r) hyp2
    refine ⟨by rw [List.foldl_cons, ihlen, hlen], fun i hi => ?_⟩
    have hadd : (vecAdd h r).get? i = some (h.getD i 0 + r.getD i 0) :=
      vecAdd_get? h r i hi (by omega)
    have hgetD : (vecAdd h r).getD i 0 = h.getD i 0 + r.getD i 0 := by
      rw [List.getD_eq_getD_get?, hadd]; rfl
    rw [List.foldl_cons, ihget i (by rw [hlen]; exact hi), hgetD]
    simp [colSum, add_assoc]

lemma vector_mean_char (X : List (List ℚ)) (m : ℕ) (hne : X ≠ [])
    (hm : ∀ r ∈ X, r.length = m) :
    ∃ s, sumAxis0 X = some s ∧ s.length = m ∧
      (∀ i, i < m → s.get? i = some (colSum X i)) ∧
      vector_mean X = some (s.map (fun v => v * (1 / (X.length : ℚ) * 1))) := by
  cases X with
  | nil => exact absurd rfl hne
  | cons h t =>
    have hh : h.length = m := hm h (by simp)
    have hall : ∀ r ∈ t, r.length = h.length := by
      intro r hr; rw [hh]; exact hm r (by simp [hr])
    obtain ⟨hlen, hget⟩ := foldl_vecAdd_char t h hall
    set s := t.foldl vecAdd h with hs
    have hsum : sumAxis0 (h :: t) = some s := by
      simp only [sumAxis0, hs]
      rw [if_pos]
      simp only [List.all_eq_true, decide_eq_true_eq]
      exact hall
    have hnz : ((h :: t).length : ℚ) ≠ 0 := by
      simp only [List.length_cons, Nat.cast_succ]
      positivity
    have hdiv : goldschmidt_division 1 (((h :: t).length : ℕ) : ℚ)
        = some (1 / ((h :: t).length : ℚ) * 1) :=
      goldschmidt_division_eq 1 _ hnz
    refine ⟨s, hsum, by rw [hlen, hh], ?_, ?_⟩
    · intro i hi
      have := hget i (by rw [hh]; exact hi)
      rw [this]
      simp [colSum]
    · simp only [vector_mean, hsum, Option.some_bind, hdiv]
      have hm2 : (List.headD (h :: t) []).length = s.length := by
        simp [List.headD, hlen, hh]
      rw [hm2]
      exact omap_range_get_map s _

/-- C1: for all plaintext a, b with b ≠ 0, `_goldschmidt_division` obtains
the reciprocal seed r = 1/b from the Key Holder's oracle, performs the
single refinement pass (one multiply) and returns r * a, which is within
the 1e-6 tolerance of a/b (exactly a/b over exact rationals). -/
theorem goldschmidt_division_approx (a b : ℚ) (hb : b ≠ 0) :
    ∃ r, goldschmidtSeed b = some r ∧ r = 1 / b ∧
      goldschmidt_division a b = some (r * a) ∧ |r * a - a / b| ≤ 1 / 1000000 := by
  refine ⟨1 / b, by simp [goldschmidtSeed, hb], rfl, goldschmidt_division_eq a b hb, ?_⟩
  have h : 1 / b * a = a / b := by field_simp
  rw [h, sub_self, abs_zero]
  norm_num

/-- Witness for C1 at a = 3, b = 2. -/
theorem goldschmidt_division_approx_w :
    (2 : ℚ) ≠ 0 ∧ ∃ r, goldschmidtSeed 2 = some r ∧ r = 1 / 2 ∧
      goldschmidt_division 3 2 = some (r * 3) ∧ |r * 3 - 3 / 2| ≤ 1 / 1000000 :=
  ⟨by norm_num, goldschmidt_division_approx 3 2 (by norm_num)⟩

/-- C2 counterexample: `_newton_sqrt(0)` does not return 0 — the first
iteration computes `goldschmidt_division(0, 0)` and the reciprocal seed
`1 / 0` raises, so the call fails instead of producing 0. -/
theorem newton_sqrt_zero_fails : newton_sqrt 0 = none := rfl

/-- C3: evaluating the component-count oracle at the failing input [1]:
it returns index 0, although the smallest number k of eigenvalues whose
cumulative normalized sum exceeds the 0.99 threshold is 1 (the prefix of
length 1 already has ratio 1 > 0.99, as the second conjunct shows); the
code returns the 0-based position, one less than the count promised. -/
theorem n_components_comparison_off_by_one :
    n_components_comparison [1] = some 0 ∧
      99 / 100 < (([(1 : ℚ)].take 1).sum / [(1 : ℚ)].sum) := by
  refine ⟨by norm_num [n_components_comparison, List.range_succ, List.find?], by norm_num⟩

/-- C4: calling Classify on the freshly initialised (untrained) server
state fails for every query batch and label list — the model attributes
were never assigned, so the access raises instead of guessing, and no
degenerate output is returned. -/
theorem classify_untrained_fails (tests : List (List (List ℚ))) (labels : List ℕ) :
    Classify initialServer tests labels = none := rfl

/-- C8 counterexample: `_matrix_mult` applied to a 1×3 and a 2×2 matrix
(incompatible inner dimensions, 3 vs 2) does not fail with any error — it
silently returns the product computed from the truncated overlap. -/
theorem matrix_mult_mismatch_no_error :
    matrix_mult [[1, 2, 3]] [[1, 0], [0, 1]] = some [[1, 2]] := by
  norm_num [matrix_mult, matMultCore, omap, idx2, List.range_succ]

/-- C8 amended: the matrix/vector operations perform no shape validation:
on incompatible shapes `_matrix_mult` silently returns a truncated
product when the second operand has fewer rows than the first has
columns, and `_mat_vec_mult` raises a bare IndexError (modelled `none`),
which names no expected-versus-actual dimensions, when the vector is
shorter than the matrix rows. -/
theorem shape_mismatch_behaviour :
    (matrix_mult [[1, 2, 3]] [[1, 0], [0, 1]]).isSome = true ∧
      mat_vec_mult [[1, 2]] [5] = none := by
  constructor
  · norm_num [matrix_mult, matMultCore, omap, idx2, List.range_succ]
  · norm_num [mat_vec_mult, matVecMultCore, omap, idx2, List.range_succ]

/-- C9: empty inputs fail rather than returning arbitrary results or
propagating NaN-like values: zero training images make Train raise inside
the mean computation (ZeroDivisionError from `divide(1, 0)`), the norm of
a zero-length vector raises the same way, a zero-length distance list
makes the argmin oracle raise ValueError, and `_vector_mean` of an empty
matrix raises; none of them returns a value. -/
theorem empty_inputs_fail :
    Train [] [] = none ∧ vecNorm [] = none ∧ distance_comparison [] = none ∧
      vector_mean [] = none := by
  refine ⟨rfl, rfl, rfl, rfl⟩

/-- C5: for every non-empty rectangular plaintext matrix, `_vector_mean`
returns the vector whose i-th entry is the column-i element-wise sum
times `divide(1, row count)` — the row count is a plaintext list length,
so the reciprocal seed is the plaintext 1/n, never an encrypted one — and
each entry equals the column sum divided by the number of rows. -/
theorem vector_mean_is_column_means (X : List (List ℚ)) (m : ℕ) (hne : X ≠ [])
    (hm : ∀ r ∈ X, r.length = m) :
    ∃ d mu, goldschmidt_division 1 (X.length : ℚ) = some d ∧
      vector_mean X = some mu ∧ mu.length = m ∧
      (∀ i, i < m → mu.get? i = some (colSum X i * d)) ∧
      (∀ i, colSum X i * d = colSum X i / (X.length : ℚ)) := by
  obtain ⟨s, hsum, hslen, hsget, hvm⟩ := vector_mean_char X m hne hm
  have hnz : ((X.length : ℕ) : ℚ) ≠ 0 := by
    cases X with
    | nil => exact absurd rfl hne
    | cons h t => simp only [List.length_cons, Nat.cast_succ]; positivity
  refine ⟨1 / (X.length : ℚ) * 1, s.map (fun v => v * (1 / (X.length : ℚ) * 1)),
    goldschmidt_division_eq 1 _ hnz, hvm, by simp [hslen], ?_, ?_⟩
  · intro i hi
    rw [List.get?_map, hsget i hi]
    rfl
  · intro i
    rw [mul_one, mul_one_div]

/-- Witness for C5 at the 2×2 matrix [[1,2],[3,4]]. -/
theorem vector_mean_is_column_means_w :
    ([[(1 : ℚ), 2], [3, 4]] ≠ []) ∧ (∀ r ∈ [[(1 : ℚ), 2], [3, 4]], r.length = 2) ∧
      ∃ d mu, goldschmidt_division 1 (([[(1 : ℚ), 2], [3, 4]].length : ℕ) : ℚ) = some d ∧
        vector_mean [[(1 : ℚ), 2], [3, 4]] = some mu ∧ mu.length = 2 ∧
        (∀ i, i < 2 → mu.get? i = some (colSum [[(1 : ℚ), 2], [3, 4]] i * d)) ∧
        (∀ i, colSum [[(1 : ℚ), 2], [3, 4]] i * d
          = colSum [[(1 : ℚ), 2], [3, 4]] i / (([[(1 : ℚ), 2], [3, 4]].length : ℕ) : ℚ)) :=
  ⟨by decide, by decide, vector_mean_is_column_means _ 2 (by decide) (by decide)⟩

/-- C10: Train mutates its `vectorized_training_images` argument in
place: as soon as the mean face has been computed, `_pca` executes
`X += -1 * self.mean_face` on the caller's array, so after Train the
caller's array holds every row minus the mean face. -/
theorem train_mutates_argument (X : List (List ℚ)) (m : ℕ) (hne : X ≠ [])
    (hm : ∀ r ∈ X, r.length = m) :
    ∃ mu, vector_mean X = some mu ∧ trainFinalX X = subMeanRows X mu := by
  obtain ⟨s, hsum, hslen, hsget, hvm⟩ := vector_mean_char X m hne hm
  exact ⟨_, hvm, by simp [trainFinalX, hvm]⟩

/-- Witness for C10 at the 2×2 matrix [[1,2],[3,4]]. -/
theorem train_mutates_argument_w :
    ([[(1 : ℚ), 2], [3, 4]] ≠ []) ∧ (∀ r ∈ [[(1 : ℚ), 2], [3, 4]], r.length = 2) ∧
      ∃ mu, vector_mean [[(1 : ℚ), 2], [3, 4]] = some mu ∧
        trainFinalX [[(1 : ℚ), 2], [3, 4]] = subMeanRows [[(1 : ℚ), 2], [3, 4]] mu :=
  ⟨by decide, by decide, train_mutates_argument _ 2 (by decide) (by decide)⟩

/-- C7: each multiply-heavy primitive — matrix-matrix multiply,
matrix-vector multiply, scalar-vector multiply, outer product — invokes
the Key Holder's reencryption oracle exactly once, on its assembled
output, before returning it: whenever the primitive returns, the oracle
call counter has advanced by exactly one. -/
theorem primitives_reencrypt_once :
    (∀ A B n r, matMultCore A B = some r → (matrix_mult_cnt A B n).2 = n + 1) ∧
      (∀ M V n r, matVecMultCore M V = some r → (mat_vec_mult_cnt M V n).2 = n + 1) ∧
      (∀ V x n, (vec_mult_cnt V x n).2 = n + 1) ∧
      (∀ U V n r, vecCrossCore U V = some r → (vec_cross_cnt U V n).2 = n + 1) := by
  refine ⟨?_, ?_, ?_, ?_⟩
  · intro A B n r h; simp [matrix_mult_cnt, h]
  · intro M V n r h; simp [mat_vec_mult_cnt, h]
  · intro V x n; rfl
  · intro U V n r h; simp [vec_cross_cnt, h]

/-- Witness for C7 on small concrete inputs for all four primitives. -/
theorem primitives_reencrypt_once_w :
    (matMultCore [[(1 : ℚ)]] [[(1 : ℚ)]] = some [[1]]
        ∧ (matrix_mult_cnt [[(1 : ℚ)]] [[(1 : ℚ)]] 0).2 = 0 + 1) ∧
      (matVecMultCore [[(1 : ℚ)]] [(1 : ℚ)] = some [1]
        ∧ (mat_vec_mult_cnt [[(1 : ℚ)]] [(1 : ℚ)] 0).2 = 0 + 1) ∧
      ((vec_mult_cnt [(1 : ℚ)] 2 0).2 = 0 + 1) ∧
      (vecCrossCore [(1 : ℚ)] [(1 : ℚ)] = some [[1]]
        ∧ (vec_cross_cnt [(1 : ℚ)] [(1 : ℚ)] 0).2 = 0 + 1) := by
  have h1 : matMultCore [[(1 : ℚ)]] [[(1 : ℚ)]] = some [[1]] := by
    norm_num [matMultCore, omap, idx2, List.range_succ]
  have h2 : matVecMultCore [[(1 : ℚ)]] [(1 : ℚ)] = some [1] := by
    norm_num [matVecMultCore, omap, idx2, List.range_succ]
  have h3 : vecCrossCore [(1 : ℚ)] [(1 : ℚ)] = some [[1]] := by
    norm_num [vecCrossCore, omap, List.range_succ]
  exact ⟨⟨h1, primitives_reencrypt_once.1 _ _ 0 _ h1⟩,
    ⟨h2, primitives_reencrypt_once.2.1 _ _ 0 _ h2⟩,
    primitives_reencrypt_once.2.2.1 _ 2 0,
    ⟨h3, primitives_reencrypt_once.2.2.2 _ _ 0 _ h3⟩⟩

lemma newtonStep_pos_eq (a x : ℚ) (ha : 0 < a) (hx : 0 < x) :
    newtonStep a x = some (1/2 * (x + 1/x * a)) ∧ 0 < 1/2 * (x + 1/x * a) := by
  constructor
  · rw [newtonStep, goldschmidt_division_eq a x (ne_of_gt hx)]
    rfl
  · have h1 : 0 < 1/x * a := by positivity
    positivity

lemma newtonAux_conv (a : ℚ) (ha : 0 < a) :
    ∀ (n : ℕ) (x : ℚ), 0 < x → Real.sqrt (a : ℝ) ≤ (x : ℝ) →
    ∃ y : ℚ, newtonAux a n x = some y ∧ 0 < y ∧ Real.sqrt (a : ℝ) ≤ (y : ℝ) ∧
      (y : ℝ) - Real.sqrt (a : ℝ) ≤ ((x : ℝ) - Real.sqrt (a : ℝ)) / 2 ^ n := by
  intro n
  induction n with
  | zero =>
    intro x hx hsx
    exact ⟨x, rfl, hx, hsx, by simp⟩
  | succ n ih =>
    intro x hx hsx
    obtain ⟨hstep, hxnp⟩ := newtonStep_pos_eq a x ha hx
    set xn : ℚ := 1/2 * (x + 1/x * a) with hxnd
    have hA : (0 : ℝ) < (a : ℝ) := by exact_mod_cast ha
    have hX : (0 : ℝ) < (x : ℝ) := by exact_mod_cast hx
    have hs0 : 0 ≤ Real.sqrt (a : ℝ) := Real.sqrt_nonneg _
    have hs2 : Real.sqrt (a : ℝ) ^ 2 = (a : ℝ) := Real.sq_sqrt hA.le
    set s : ℝ := Real.sqrt (a : ℝ) with hsdef
    have hXne : (x : ℝ) ≠ 0 := ne_of_gt hX
    have hcast : ((xn : ℚ) : ℝ) = ((x : ℝ) + (a : ℝ) / (x : ℝ)) / 2 := by
      rw [hxnd]
      push_cast
      rw [one_div_mul_eq_div, one_div_mul_eq_div]
    have he1 : ((x : ℝ) + (a : ℝ) / (x : ℝ)) / 2 - s
        = ((x : ℝ) ^ 2 - 2 * s * (x : ℝ) + (a : ℝ)) / (2 * (x : ℝ)) := by
      field_simp
      ring
    have he2 : 0 ≤ (x : ℝ) ^ 2 - 2 * s * (x : ℝ) + (a : ℝ) := by
      nlinarith [sq_nonneg ((x : ℝ) - s)]
    have key1 : s ≤ ((xn : ℚ) : ℝ) := by
      have h3 : 0 ≤ ((x : ℝ) ^ 2 - 2 * s * (x : ℝ) + (a : ℝ)) / (2 * (x : ℝ)) :=
        div_nonneg he2 (by linarith)
      rw [hcast]
      linarith [he1, h3]
    have key2 : ((xn : ℚ) : ℝ) - s ≤ ((x : ℝ) - s) / 2 := by
      have he3 : ((x : ℝ) + (a : ℝ) / (x : ℝ)) / 2 - s - ((x : ℝ) - s) / 2
          = ((a : ℝ) - s * (x : ℝ)) / (2 * (x : ℝ)) := by
        field_simp
        ring
      have he4 : (a : ℝ) - s * (x : ℝ) ≤ 0 := by nlinarith
      have he5 : ((a : ℝ) - s * (x : ℝ)) / (2 * (x : ℝ)) ≤ 0 :=
        div_nonpos_of_nonpos_of_nonneg he4 (by linarith)
      rw [hcast]
      linarith [he3, he5]
    obtain ⟨y, hy, hypos, hys, hyb⟩ := ih xn hxnp key1
    refine ⟨y, ?_, hypos, hys, ?_⟩
    · rw [newtonAux, hstep, Option.some_bind]
      exact hy
    · have hstepb : ((xn : ℚ) : ℝ) - s ≤ ((x : ℝ) - s) / 2 := key2
      have hmono : (((xn : ℚ) : ℝ) - s) / 2 ^ n ≤ (((x : ℝ) - s) / 2) / 2 ^ n := by
        gcongr
      calc (y : ℝ) - s ≤ (((xn : ℚ) : ℝ) - s) / 2 ^ n := hyb
        _ ≤ (((x : ℝ) - s) / 2) / 2 ^ n := hmono
        _ = ((x : ℝ) - s) / 2 ^ (n + 1) := by
            rw [div_div, mul_comm, ← pow_succ]

/-- C2 amended: `_newton_sqrt` runs its 30 fixed Newton-Raphson
iterations from x0 = x; for every positive plaintext x it returns a value
y that overestimates √x with error at most (√x − 1)²/2³⁰ — within any
fixed tolerance on the moderate value range the pipeline feeds it — while
`_newton_sqrt(0)` fails with a division-by-zero error instead of
returning 0. -/
theorem newton_sqrt_approx (x : ℚ) (hx : 0 < x) :
    ∃ y : ℚ, newton_sqrt x = some y ∧ Real.sqrt (x : ℝ) ≤ (y : ℝ) ∧
      (y : ℝ) - Real.sqrt (x : ℝ) ≤ (Real.sqrt (x : ℝ) - 1) ^ 2 / 2 ^ 30 := by
  have hx0 : x ≠ 0 := ne_of_gt hx
  obtain ⟨hstep, hx1pos⟩ := newtonStep_pos_eq x x hx hx
  set x1 : ℚ := 1/2 * (x + 1/x * x) with hx1def
  have hX : (0 : ℝ) < (x : ℝ) := by exact_mod_cast hx
  have hs0 : 0 ≤ Real.sqrt (x : ℝ) := Real.sqrt_nonneg _
  have hs2 : Real.sqrt (x : ℝ) ^ 2 = (x : ℝ) := Real.sq_sqrt hX.le
  set s : ℝ := Real.sqrt (x : ℝ) with hsdef
  have hx1q : x1 = (x + 1) / 2 := by
    rw [hx1def, one_div_mul_eq_div, one_div_mul_eq_div, div_self hx0]
  have hx1cast : ((x1 : ℚ) : ℝ) = ((x : ℝ) + 1) / 2 := by
    rw [hx1q]
    push_cast
    ring
  have hfirstle : s ≤ ((x1 : ℚ) : ℝ) := by
    rw [hx1cast]
    nlinarith [sq_nonneg (s - 1)]
  obtain ⟨y, hy, hypos, hys, hyb⟩ := newtonAux_conv x hx 29 x1 hx1pos hfirstle
  refine ⟨y, ?_, hys, ?_⟩
  · have h30 : newton_sqrt x = (newtonStep x x).bind (newtonAux x 29) := rfl
    rw [h30, hstep, Option.some_bind]
    exact hy
  · have herr : ((x1 : ℚ) : ℝ) - s = (s - 1) ^ 2 / 2 := by
      rw [hx1cast, ← hs2]
      ring
    calc (y : ℝ) - s ≤ (((x1 : ℚ) : ℝ) - s) / 2 ^ 29 := hyb
      _ = ((s - 1) ^ 2 / 2) / 2 ^ 29 := by rw [herr]
      _ = (s - 1) ^ 2 / 2 ^ 30 := by
          rw [div_div]
          norm_num

/-- Witness for C2 at x = 1 (where the iteration is stationary at 1). -/
theorem newton_sqrt_approx_w :
    (0 : ℚ) < 1 ∧ ∃ y : ℚ, newton_sqrt 1 = some y ∧
      Real.sqrt ((1 : ℚ) : ℝ) ≤ (y : ℝ) ∧
      (y : ℝ) - Real.sqrt ((1 : ℚ) : ℝ) ≤ (Real.sqrt ((1 : ℚ) : ℝ) - 1) ^ 2 / 2 ^ 30 :=
  ⟨by norm_num, newton_sqrt_approx 1 (by norm_num)⟩

lemma vecCrossCore_eq (V1 V2 : List ℚ) (h : V2.length = V1.length) :
    vecCrossCore V1 V2 = some (V1.map (fun a => V2.map (fun b => a * b))) := by
  rw [vecCrossCore]
  have hin : ∀ i ∈ List.range V1.length,
      ((V1.get? i).bind (fun a =>
          omap (fun j => (V2.get? j).map (fun b => a * b)) (List.range V1.length)))
        = (V1.get? i).bind (fun a => some (V2.map (fun b => a * b))) := by
    intro i _
    congr 1
    funext a
    rw [← h, omap_range_get_map]
  rw [omap_congr hin, omap_range_get_bind, omap_some]

lemma extractPair_eq (n : ℕ) (C : List (List ℚ)) :
    extractPair n C = extractPairSpec n C := by
  have hr : List.range powIterCount = [0, 1] := by decide
  rw [extractPair, extractPairSpec, hr]
  simp [powLoop, powLoopStep, powerIterationStep, powIterCount, Option.bind_assoc]

lemma vecSub_eq_vecAddNeg : ∀ (r s : List ℚ),
    List.zipWith (fun a b => a - b) r s
      = List.zipWith (fun a b => a + b) r (s.map (fun v => (-1) * v))
  | [], _ => by simp
  | _ :: _, [] => by simp
  | a :: r, b :: s => by
    simp only [List.zipWith_cons_cons, List.map_cons, vecSub_eq_vecAddNeg r s]
    congr 1
    ring

lemma matSub_eq_matAdd_neg : ∀ (A B : List (List ℚ)),
    matSub A B = matAdd A (B.map (fun r => r.map (fun v => (-1) * v)))
  | [], B => by simp [matSub, matAdd]
  | _ :: _, [] => by simp [matSub, matAdd]
  | r :: A, s :: B => by
    simp only [matSub, matAdd, List.map_cons, List.zipWith_cons_cons, List.cons.injEq]
    exact ⟨vecSub_eq_vecAddNeg r s, matSub_eq_matAdd_neg A B⟩

lemma matDeflate_eq (Cm : List (List ℚ)) (w : List ℚ) (lam : ℚ) :
    matAdd Cm ((vecMultCore w ((-1) * lam)).map (fun a => w.map (fun b => a * b)))
      = matSub Cm (matScale lam (outerProduct w w)) := by
  rw [matSub_eq_matAdd_neg]
  congr 1
  simp only [vecMultCore, matScale, outerProduct, List.map_map]
  congr 1
  funext v
  simp only [Function.comp_apply, List.map_map]
  congr 1
  funext b
  simp only [Function.comp_apply]
  ring

lemma powEigStep_eq (n : ℕ) (acc : List (List ℚ) × List ℚ × List (List ℚ)) :
    powEigStep n acc = powEigStepSpec n acc := by
  rw [powEigStep, powEigStepSpec, extractPair_eq]
  cases h : extractPairSpec n acc.1 with
  | none => rfl
  | some p =>
    simp only [Option.bind_eq_bind, Option.some_bind]
    have hlen : p.2.length = (vecMultCore p.2 ((-1) * p.1)).length := by
      simp [vecMultCore]
    rw [vecCrossCore_eq _ _ hlen, Option.some_bind, matDeflate_eq]


lemma powEigRun_eq (n : ℕ) : ∀ (k : ℕ) (acc : List (List ℚ) × List ℚ × List (List ℚ)),
    powEigRun n k acc = powEigRunSpec n k acc
  | 0, _ => rfl
  | k + 1, acc => by
    rw [powEigRun, powEigRunSpec, powEigStep_eq]
    cases h : powEigStepSpec n acc with
    | none => rfl
    | some acc2 =>
      simp only [Option.bind_eq_bind, Option.some_bind]
      exact powEigRun_eq n k acc2

/-- C6: `_pow_eig_comb` performs, for each of the `n` eigenpairs of an
`n × n` matrix, exactly the procedure the claim describes: all-ones
(deterministic) start, normalisation via norm and divide, a fixed 2
power-iterations (multiply by C, norm as the eigenvalue estimate,
normalise by dividing by that norm), a sign/scale correction equal to the
ratio of the final iterate's first entry to the snapshot taken at
iteration N−2 applied to both eigenvalue and eigenvector, and deflation
of C by subtracting eigenvalue times the outer product of the eigenvector
with itself before the next extraction. -/
theorem pow_eig_comb_refines_spec (C : List (List ℚ)) :
    pow_eig_comb C = pow_eig_comb_spec C := by
  rw [pow_eig_comb, pow_eig_comb_spec, powEigRun_eq]
